import Mathlib

/-!
# Verification of the `quickdisorder` proof checker

Shallow embedding of `check_proof.py` and `word_problem.py` from the
`quickdisorder` repository, together with theorems settling the frozen
claims about the natural-language specification.

The certified interval arithmetic (Sage's `RealIntervalField` /
`ComplexIntervalField` as used through snappy) is an external collaborator
of the repository.  We model it by closed intervals with rational
endpoints: `Itv` below is a conforming provider of the interface the code
uses (add, sub, mul, abs, builtin `min` via the interval comparison, and
the strict interval comparison `x < y ↔ x.upper < y.lower`).  Matrices are
2×2 interval matrices; `SL2C_inverse` is the adjugate, exactly as in
`snappy.snap.polished_reps`, and `contains_one` tests entrywise containment
of the identity matrix, as in `snappy.snap.interval_reps`.
-/

namespace QD

/-- A closed interval with rational endpoints, the model of one entry of a
certified interval matrix (Sage `RealIntervalField` element with exact
endpoints). -/
structure Itv where
  lo : ℚ
  hi : ℚ
deriving DecidableEq, Repr

namespace Itv

/-- Degenerate (point) interval. -/
def pt (q : ℚ) : Itv := ⟨q, q⟩

/-- Interval addition. -/
def add (x y : Itv) : Itv := ⟨x.lo + y.lo, x.hi + y.hi⟩

/-- Interval subtraction. -/
def sub (x y : Itv) : Itv := ⟨x.lo - y.hi, x.hi - y.lo⟩

/-- Interval negation. -/
def neg (x : Itv) : Itv := ⟨-x.hi, -x.lo⟩

/-- Interval multiplication: the endpoints are the extrema of the four
endpoint products. -/
def mul (x y : Itv) : Itv :=
  ⟨min (min (x.lo * y.lo) (x.lo * y.hi)) (min (x.hi * y.lo) (x.hi * y.hi)),
   max (max (x.lo * y.lo) (x.lo * y.hi)) (max (x.hi * y.lo) (x.hi * y.hi))⟩

/-- Interval absolute value (exact image for a well-formed interval). -/
def abs (x : Itv) : Itv :=
  ⟨max 0 (max x.lo (-x.hi)), max x.hi (-x.lo)⟩

/-- Squaring `x ** 2` on an interval field element, computed as `x * x`. -/
def sq (x : Itv) : Itv := mul x x

/-- Sage's strict comparison of intervals: `x < y` holds iff it holds for
every pair of values consistent with the two intervals, i.e. iff
`x.upper() < y.lower()`. -/
def ltB (x y : Itv) : Bool := decide (x.hi < y.lo)

/-- Python's builtin `min` applied to two interval field elements: it
returns the second argument exactly when the comparison `y < x` holds (in
the Sage interval sense), otherwise the first.  This is a selection of one
of the two intervals, not an endpointwise interval minimum. -/
def pymin (x y : Itv) : Itv := if ltB y x then y else x

/-- Containment of a rational point in the interval. -/
def containsQ (x : Itv) (q : ℚ) : Bool := decide (x.lo ≤ q ∧ q ≤ x.hi)

/-- A well-formed (nonempty) interval. -/
def wf (x : Itv) : Prop := x.lo ≤ x.hi

/-- Modelled from the spec: `min` "computed in interval arithmetic", i.e.
the endpointwise interval minimum (what Sage's `RIF.min` would return),
used to compare the spec's reading of the `mu` formula with the code. -/
def imin (x y : Itv) : Itv := ⟨min x.lo y.lo, min x.hi y.hi⟩

end Itv

/-- A 2×2 interval matrix `[[a, b], [c, d]]`, the model of an element of
`GL(2, ComplexIntervalField)` as produced by the certified holonomy
representation. -/
structure IMat where
  a : Itv
  b : Itv
  c : Itv
  d : Itv
deriving DecidableEq, Repr

namespace IMat

/-- Interval matrix product. -/
def mul (x y : IMat) : IMat :=
  ⟨Itv.add (Itv.mul x.a y.a) (Itv.mul x.b y.c),
   Itv.add (Itv.mul x.a y.b) (Itv.mul x.b y.d),
   Itv.add (Itv.mul x.c y.a) (Itv.mul x.d y.c),
   Itv.add (Itv.mul x.c y.b) (Itv.mul x.d y.d)⟩

/-- Matrix trace. -/
def trace (x : IMat) : Itv := Itv.add x.a x.d

/-- A point (degenerate) interval matrix. -/
def pt (a b c d : ℚ) : IMat := ⟨Itv.pt a, Itv.pt b, Itv.pt c, Itv.pt d⟩

end IMat

/-- From `snappy.snap.polished_reps`, `SL2C_inverse`: the adjugate
`[[d, -b], [-c, a]]`, which is the inverse for a determinant-one matrix. -/
def SL2C_inverse (x : IMat) : IMat :=
  ⟨x.d, Itv.neg x.b, Itv.neg x.c, x.a⟩

/-- From `snappy.snap.interval_reps`, `contains_one`: whether the interval matrix
contains the identity matrix (entrywise containment). -/
def contains_one (m : IMat) : Bool :=
  m.a.containsQ 1 && m.b.containsQ 0 && m.c.containsQ 0 && m.d.containsQ 1

/-- The error taxonomy: each constructor records one of the exceptions the
Python code can raise (all are `ValueError`s except the failed `assert`
inside `jorgensens_inequality_fails`). -/
inductive Err where
  /-- `ValueError('Sorry, we do not support orbifold singularities')` -/
  | unsupportedTopology
  /-- `ValueError("Could not verify the holonomy representation.")` -/
  | verificationFailed
  /-- `ValueError("Could not verify a pair of noncommuting gens.")` -/
  | noNoncommutingGens
  /-- `ValueError('Failed to solve the word problem at this precision.')` -/
  | precisionInsufficient
  /-- a failed `assert` statement -/
  | assertionError
deriving DecidableEq, Repr

deriving instance DecidableEq for Except

/-- The `first_term` of `jorgensens_inequality_fails`:
`min(abs(trace(A)**2 - 4), abs(trace(B)**2 - 4))` where `min` is the Python
builtin applied to two interval field elements. -/
def jorgensen_first_term (A B : IMat) : Itv :=
  Itv.pymin (Itv.abs (Itv.sub (Itv.sq A.trace) (Itv.pt 4)))
    (Itv.abs (Itv.sub (Itv.sq B.trace) (Itv.pt 4)))

/-- The quantity `mu = first_term + abs(trace(A*B*Ainv*Binv) - 2)` computed
by `jorgensens_inequality_fails`. -/
def jorgensen_mu (A B : IMat) : Itv :=
  Itv.add (jorgensen_first_term A B)
    (Itv.abs (Itv.sub
      (IMat.trace (IMat.mul (IMat.mul (IMat.mul A B) (SL2C_inverse A)) (SL2C_inverse B)))
      (Itv.pt 2)))

/-- The boolean `mu < 1` returned by `jorgensens_inequality_fails` when its
assertions pass. -/
def jorgensen_mu_lt_one (A B : IMat) : Bool :=
  Itv.ltB (jorgensen_mu A B) (Itv.pt 1)

/-- The function `jorgensens_inequality_fails(A, B)` from `word_problem.py`: after
asserting `contains_one(A*Ainv) and contains_one(B*Binv)`, it returns
whether `mu < 1` holds provably in interval arithmetic. -/
def jorgensens_inequality_fails (A B : IMat) : Except Err Bool :=
  if contains_one (IMat.mul A (SL2C_inverse A))
      && contains_one (IMat.mul B (SL2C_inverse B)) then
    .ok (jorgensen_mu_lt_one A B)
  else
    .error .assertionError

/-- Modelled from the spec: the quantity
`mu = min(|trace(P)^2 - 4|, |trace(Q)^2 - 4|) + |trace(P*Q*invert(P)*invert(Q)) - 2|`
"computed in interval arithmetic", reading `min` as the endpointwise
interval minimum. -/
def mu_spec (P Q : IMat) : Itv :=
  Itv.add
    (Itv.imin (Itv.abs (Itv.sub (Itv.sq P.trace) (Itv.pt 4)))
      (Itv.abs (Itv.sub (Itv.sq Q.trace) (Itv.pt 4))))
    (Itv.abs (Itv.sub
      (IMat.trace (IMat.mul (IMat.mul (IMat.mul P Q) (SL2C_inverse P)) (SL2C_inverse Q)))
      (Itv.pt 2)))

/-- Modelled from the spec: the directional Jorgensen failure test for the
ordered pair `(P, Q)`, namely that
`|trace(P)^2 - 4| + |trace(P*Q*invert(P)*invert(Q)) - 2|` is provably
less than 1. -/
def jorgensen_directional (P Q : IMat) : Bool :=
  Itv.ltB
    (Itv.add (Itv.abs (Itv.sub (Itv.sq P.trace) (Itv.pt 4)))
      (Itv.abs (Itv.sub
        (IMat.trace (IMat.mul (IMat.mul (IMat.mul P Q) (SL2C_inverse P)) (SL2C_inverse Q)))
        (Itv.pt 2))))
    (Itv.pt 1)

/-- The state of a `WordProblemSolver`: the certified representation
`rho` (an external collaborator, modelled as a function from words to
interval matrices) and the fixed anchor pair `noncommmuting_mats`
(spelled as in the source). -/
structure WordProblemSolver where
  rho : String → IMat
  noncommmuting_mats : IMat × IMat

namespace WordProblemSolver

/-- The method `WordProblemSolver.is_nontrivial`: return `True` if the image `X`
provably does not contain the identity; otherwise return `False` when both
anchors show the Jorgensen failure condition against `X` (the Python `and`
short-circuits); otherwise raise
`ValueError('Failed to solve the word problem at this precision.')`. -/
def is_nontrivial (s : WordProblemSolver) (word : String) : Except Err Bool :=
  let X := s.rho word
  if !contains_one X then .ok true
  else do
    let j1 ← jorgensens_inequality_fails X s.noncommmuting_mats.1
    if j1 then do
      let j2 ← jorgensens_inequality_fails X s.noncommmuting_mats.2
      if j2 then .ok false else .error .precisionInsufficient
    else .error .precisionInsufficient

/-- The method `WordProblemSolver.is_trivial`: `not is_nontrivial(word)`, with any
exception propagating unchanged. -/
def is_trivial (s : WordProblemSolver) (word : String) : Except Err Bool :=
  (is_nontrivial s word).map (fun b => !b)

end WordProblemSolver

/-- The function `is_manifold` from `word_problem.py`: every cusp filling coefficient
pair must either be `(0, 0)` or consist of two integers with gcd 1.  The
coefficients reported by snappy are floating point numbers; we model them
as rationals, and the `ZZ(a)` conversion succeeding means the denominator
is 1. -/
def is_manifold (cusps : List (ℚ × ℚ)) : Bool :=
  cusps.all fun p =>
    if p.1.den = 1 ∧ p.2.den = 1 then
      if p.1 = 0 ∧ p.2 = 0 then true
      else Int.gcd p.1.num p.2.num == 1
    else false

/-- The generator `pairs(xs)` from `word_problem.py`: all pairs `(x, y)` with `x` before
`y`, in source order. -/
def pairs {α : Type} : List α → List (α × α)
  | [] => []
  | x :: xs => (xs.map fun y => (x, y)) ++ pairs xs

/-- The result of the external `verify_hyperbolicity` collaborator: the
certified representation's generators, relators and evaluation map. -/
structure Rho where
  gens : List String
  relators : List String
  ev : String → IMat

/-- The method `WordProblemSolver._find_noncommuting_gens`: the first generator pair
`(g, h)` in source order whose commutator word `g + h + (g + h).upper()`
provably does not contain the identity. -/
def find_noncommuting_gens (rho : Rho) : Option (String × String) :=
  (pairs rho.gens).find? fun p =>
    !contains_one (rho.ev (p.1 ++ p.2 ++ (p.1 ++ p.2).toUpper))

/-- The constructor `WordProblemSolver.__init__`: reject orbifold fillings first (before
any certified computation: the outcome of `verify_hyperbolicity` is a
parameter and is not consulted in that case), then require the holonomy
representation to be verified, then find the noncommuting anchor pair. -/
def WordProblemSolver.init (cusps : List (ℚ × ℚ)) (verified : Option Rho) :
    Except Err WordProblemSolver :=
  if !is_manifold cusps then .error .unsupportedTopology
  else
    match verified with
    | none => .error .verificationFailed
    | some rho =>
      match find_noncommuting_gens rho with
      | some p => .ok ⟨rho.ev, (rho.ev p.1, rho.ev p.2)⟩
      | none => .error .noNoncommutingGens

/-! ## `check_proof.py` -/

/-- Python `str.swapcase` on one character, for the ASCII range used by
the generator alphabet (lowercase and uppercase basic latin letters; all
other characters are left unchanged). -/
def swapCase (c : Char) : Char :=
  if 97 ≤ c.toNat ∧ c.toNat ≤ 122 then Char.ofNat (c.toNat - 32)
  else if 65 ≤ c.toNat ∧ c.toNat ≤ 90 then Char.ofNat (c.toNat + 32)
  else c

/-- The function `invert_word(word)` from `check_proof.py`: `word.swapcase()[::-1]`,
i.e. swap the case of every letter and reverse the order. -/
def invert_word (w : String) : String :=
  ⟨(w.data.map swapCase).reverse⟩

/-- A parsed claim: the pair `(path_to_root, trivial_word)`, each a list
of word tokens (the Python code splits the two strings on `'.'`). -/
abbrev Claim := List String × List String

/-- The function `paths_to_root(claims)`: the first component of every claim. -/
def paths_to_root (claims : List Claim) : List (List String) :=
  claims.map Prod.fst

/-- A labeled directed edge of the networkx digraph built by `tree_ok`;
vertices are identified by their full prefix string. -/
structure Edge where
  src : String
  tgt : String
  label : String
deriving DecidableEq, Repr

/-- The edges contributed by one path, starting at vertex `v`: each label
`g` extends the current vertex `vert` to `vert + '.' + g`. -/
def edgesOf : String → List String → List Edge
  | _, [] => []
  | v, g :: gs => ⟨v, v ++ "." ++ g, g⟩ :: edgesOf (v ++ "." ++ g) gs

/-- The vertices (other than the start) visited by one path. -/
def vertsOf : String → List String → List String
  | _, [] => []
  | v, g :: gs => (v ++ "." ++ g) :: vertsOf (v ++ "." ++ g) gs

/-- The final vertex reached by one path. -/
def endVert : String → List String → String
  | v, [] => v
  | v, g :: gs => endVert (v ++ "." ++ g) gs

/-- Insertion into a node list keeping the first occurrence (networkx
keeps nodes in insertion order and `add_node`/`add_edge` of an existing
node is a no-op). -/
def insertFresh {α : Type} [DecidableEq α] (acc : List α) (x : α) : List α :=
  if x ∈ acc then acc else acc ++ [x]

/-- Insertion into an edge list keyed on `(src, tgt)` (a networkx digraph
stores at most one edge per ordered vertex pair; re-adding it only updates
the label, and here the label is determined by the endpoints). -/
def insertEdge (acc : List Edge) (e : Edge) : List Edge :=
  if acc.any (fun e2 => e2.src == e.src && e2.tgt == e.tgt) then acc else acc ++ [e]

/-- The node list of the digraph built by `tree_ok`: the root `'1'`
followed by every path prefix in insertion order. -/
def buildNodes (paths : List (List String)) : List String :=
  ((paths.map (vertsOf "1")).flatten).foldl insertFresh ["1"]

/-- The edge list of the digraph built by `tree_ok`. -/
def buildEdges (paths : List (List String)) : List Edge :=
  ((paths.map (edgesOf "1")).flatten).foldl insertEdge []

/-- The Python `leaves` list: it starts with the root `'1'` and appends
the final vertex of every path, duplicates included. -/
def buildLeaves (paths : List (List String)) : List String :=
  "1" :: paths.map (endVert "1")

/-- In-degree of a vertex. -/
def inDeg (es : List Edge) (v : String) : Nat :=
  (es.filter fun e => e.tgt == v).length

/-- Out-degree of a vertex. -/
def outDeg (es : List Edge) (v : String) : Nat :=
  (es.filter fun e => e.src == v).length

/-- Total degree (in + out), as returned by `T.degree()`. -/
def degree (es : List Edge) (v : String) : Nat :=
  inDeg es v + outDeg es v

/-- The labels of the outgoing edges of `v`, in insertion order
(`[attr['label'] for attr in T.adj[v].values()]`). -/
def outLabels (es : List Edge) (v : String) : List String :=
  es.filterMap fun e => if e.src == v then some e.label else none

/-- Whether `v` is adjacent (in the undirected sense) to the set `comp`. -/
def adjTo (es : List Edge) (comp : List String) (v : String) : Bool :=
  es.any fun e => (e.src == v && comp.contains e.tgt) || (e.tgt == v && comp.contains e.src)

/-- One breadth step of the weakly-connected-component closure. -/
def growComp (es : List Edge) (ns : List String) (comp : List String) : List String :=
  comp ++ ns.filter fun v => !comp.contains v && adjTo es comp v

/-- Fuel-driven closure computing the weakly connected component. -/
def compClosure (es : List Edge) (ns : List String) : Nat → List String → List String
  | 0, comp => comp
  | k + 1, comp => compClosure es ns k (growComp es ns comp)

/-- Fuel-driven loop computing the number of weakly connected
components: pick the first remaining vertex, remove its component,
repeat.  Fuel `ns.length` suffices since every round removes at least
one vertex. -/
def countCompsAux (es : List Edge) : Nat → List String → Nat
  | 0, _ => 0
  | _, [] => 0
  | fuel + 1, v :: rest =>
    let comp := compClosure es (v :: rest) (rest.length + 1) [v]
    1 + countCompsAux es fuel (rest.filter fun w => !comp.contains w)

/-- The number of weakly connected components spanned by `es` on the
given vertex list. -/
def countComps (es : List Edge) (ns : List String) : Nat :=
  countCompsAux es ns.length ns

/-- The check `networkx.is_branching(T)`: `T` is a directed forest (the number of
directed edges equals the number of vertices minus the number of weakly
connected components, which for a digraph without multi-edges says every
component is a tree) in which every vertex has in-degree at most 1. -/
def is_branching (ns : List String) (es : List Edge) : Bool :=
  (countComps es ns + es.length == ns.length)
    && ns.all fun v => decide (inDeg es v ≤ 1)

/-- The interior-vertex label check of `tree_ok`: unpack
`w0, w1 = [attr['label'] for attr in T.adj[v].values()]` and test
`invert_word(w0) == w1`.  When the vertex does not have exactly two
outgoing edges the Python unpacking would raise, but `tree_ok` only
reaches this point for a non-leaf vertex of total degree 3 and in-degree
at most 1 that is the target of some edge, so there are exactly two. -/
def labelsOk (es : List Edge) (v : String) : Bool :=
  match outLabels es v with
  | [w0, w1] => invert_word w0 == w1
  | _ => false

/-- Successors of a vertex, in edge insertion order. -/
def succs (es : List Edge) (u : String) : List String :=
  es.filterMap fun e => if e.src == u then some e.tgt else none

/-- Breadth-first search accumulating, for every reachable vertex, the
list of vertices on a shortest directed path from the source. -/
def bfsAux (es : List Edge) :
    Nat → List (String × List String) → List (String × List String) →
      List (String × List String)
  | 0, _, acc => acc
  | fuel + 1, frontier, acc =>
    let next := (frontier.map fun p => (succs es p.1).map fun v => (v, p.2 ++ [v])).flatten
    let fresh := next.foldl
      (fun fr q =>
        if (acc.any fun r => r.1 == q.1) || (fr.any fun r => r.1 == q.1) then fr
        else fr ++ [q]) []
    match fresh with
    | [] => acc
    | _ => bfsAux es fuel fresh (acc ++ fresh)

/-- The call `networkx.single_source_shortest_path(T, '1')`: shortest directed
paths from the root to every reachable vertex. -/
def paths_from_root (ns : List String) (es : List Edge) :
    List (String × List String) :=
  bfsAux es ns.length [("1", ["1"])] [("1", ["1"])]

/-- Python `v.startswith(p)`: the character list of `p` is an initial
segment of that of `v`. -/
def startsWithB (v p : String) : Bool :=
  p.data.isPrefixOf v.data

/-- The final, "should be redundant" check of `tree_ok`: every vertex on
the shortest path from the root to `v` is a string prefix of `v`. -/
def prefixCheck (ns : List String) (es : List Edge) : Bool :=
  (paths_from_root ns es).all fun p => p.2.all fun q => startsWithB p.1 q

/-- The function `tree_ok(claims)` from `check_proof.py`: build the prefix digraph of
all paths, then require (1) `nx.is_branching`, (2) every vertex in the
`leaves` list (which always contains the root `'1'`) has total degree
exactly 1, every other vertex has total degree exactly 3 and its two
outgoing labels are formal inverses, (3) the number of distinct vertices
appearing in `leaves` equals the length of `leaves`, and (4) the
shortest-path prefix re-check.  The Python early returns are pure, so the
result is the conjunction of the checks. -/
def tree_ok (claims : List Claim) : Bool :=
  let paths := paths_to_root claims
  let ns := buildNodes paths
  let es := buildEdges paths
  let leaves := buildLeaves paths
  is_branching ns es
    && (ns.all fun v =>
        if v ∈ leaves then degree es v == 1
        else degree es v == 3 && labelsOk es v)
    && ((ns.filter fun v => decide (v ∈ leaves)).length == leaves.length)
    && prefixCheck ns es

/-- Python's `all()` over a generator of certified evaluations: it
short-circuits at the first `False`, and an exception raised by a later
evaluation therefore does not fire. -/
def allE {α : Type} (f : α → Except Err Bool) : List α → Except Err Bool
  | [] => .ok true
  | x :: xs => do
    let b ← f x
    if b then allE f xs else .ok false

/-- The function `all_nontrivial_edge_labels(solver, claims)`: every distinct edge
label across all paths must be certified nontrivial.  The Python code
iterates over `set(sum(paths, []))`, whose order is unspecified; we use
first-insertion order. -/
def all_nontrivial_edge_labels (solver : WordProblemSolver) (claims : List Claim) :
    Except Err Bool :=
  let edge_labels := ((paths_to_root claims).flatten).foldl insertFresh []
  allE solver.is_nontrivial edge_labels

/-- The function `check_claim(solver, claim)`: evaluate
`is_one = solver.is_trivial(''.join(trivial_word))` first (any exception
propagates), then return whether the token set of `trivial_word` is a
subset of the path's edge-label set and `is_one` holds. -/
def check_claim (solver : WordProblemSolver) (claim : Claim) : Except Err Bool := do
  let is_one ← solver.is_trivial (String.join claim.2)
  .ok ((claim.2.all fun t => decide (t ∈ claim.1)) && is_one)

/-- The final stage of `check_proof(proof)`, after the solver has been
constructed (`WordProblemSolver.init`) and the claims parsed: compute
`a0 = tree_ok(claims)`, `a1 = all_nontrivial_edge_labels(solver, claims)`
and `a2 = all(check_claim(solver, c) for c in claims)` eagerly in that
order and return `a0 and a1 and a2`. -/
def check_proof (solver : WordProblemSolver) (claims : List Claim) :
    Except Err Bool := do
  let a0 := tree_ok claims
  let a1 ← all_nontrivial_edge_labels solver claims
  let a2 ← allE (check_claim solver) claims
  .ok (a0 && a1 && a2)

/-! ## Helper lemmas -/

/-- A `Nat` below the surrogate range is a valid unicode scalar value, and
`Char.ofNat` then round-trips through `Char.toNat`. -/
theorem toNat_ofNat_small (n : Nat) (h : n < 55296) : (Char.ofNat n).toNat = n := by
  rw [Char.ofNat, dif_pos (Or.inl h)]
  rfl

/-- Applying `swapCase` twice gives back the original character. -/
theorem swapCase_swapCase (c : Char) : swapCase (swapCase c) = c := by
  unfold swapCase
  by_cases h1 : 97 ≤ c.toNat ∧ c.toNat ≤ 122
  · rw [if_pos h1]
    have ht : (Char.ofNat (c.toNat - 32)).toNat = c.toNat - 32 :=
      toNat_ofNat_small _ (by omega)
    rw [ht, if_neg (by omega), if_pos (by omega)]
    have he : c.toNat - 32 + 32 = c.toNat := by omega
    rw [he, Char.ofNat_toNat]
  · rw [if_neg h1]
    by_cases h2 : 65 ≤ c.toNat ∧ c.toNat ≤ 90
    · rw [if_pos h2]
      have ht : (Char.ofNat (c.toNat + 32)).toNat = c.toNat + 32 :=
        toNat_ofNat_small _ (by omega)
      rw [ht, if_pos (by omega)]
      have he : c.toNat + 32 - 32 = c.toNat := by omega
      rw [he, Char.ofNat_toNat]
    · rw [if_neg h2, if_neg h1, if_neg h2]

/-! ## Claims -/

/-- C9: `invert_word` reverses the letter order of a word and flips the
case of each letter; it is an involution, `invert(invert(w)) == w` for
every word `w`, and on the examples `invert("a") == "A"` and
`invert("ab") == "BA"`. -/
theorem c9_invert_word_involution :
    (∀ w : String, invert_word (invert_word w) = w) ∧
    (∀ w : String, invert_word w = ⟨(w.data.map swapCase).reverse⟩) ∧
    invert_word "a" = "A" ∧ invert_word "ab" = "BA" := by
  refine ⟨?_, fun w => rfl, by decide, by decide⟩
  intro w
  cases w with
  | mk l =>
    show (⟨((l.map swapCase).reverse.map swapCase).reverse⟩ : String) = ⟨l⟩
    rw [List.map_reverse, List.reverse_reverse, List.map_map]
    have : l.map (swapCase ∘ swapCase) = l.map id := by
      apply List.map_congr_left
      intro c _
      exact swapCase_swapCase c
    rw [this, List.map_id]

/-- C4 counterexample: contrary to the claim, `tree_ok` accepts the
single-claim input whose only path is `["a"]` (it returns `true`, not
`false`). -/
theorem c4_single_claim_accepted :
    tree_ok [(["a"], ["a"])] = true := by decide

/-- C4 amended: `tree_ok` accepts the single-claim input with path
`["a"]`: the root `'1'` is always placed in the leaf list, so it is
checked for total degree exactly 1 (which holds here), and the
degree-3 rule applies only to vertices outside the leaf list. -/
theorem c4_single_claim_root_degree :
    tree_ok [(["a"], ["a"])] = true ∧
    "1" ∈ buildLeaves (paths_to_root [(["a"], ["a"])]) ∧
    degree (buildEdges (paths_to_root [(["a"], ["a"])])) "1" = 1 := by
  refine ⟨by decide, by decide, by decide⟩

/-- C7: `tree_ok` returns `false` when two claims carry the identical
path `["a"]`: only one distinct leaf vertex is created for the two
claims, so the count of distinct vertices in the `leaves` list (2,
including the root) differs from its length (3 = claim count + 1),
which is exactly the code's duplicate-path rejection. -/
theorem c7_duplicate_paths_rejected :
    tree_ok [(["a"], ["a"]), (["a"], ["b"])] = false ∧
    ((paths_to_root [(["a"], ["a"]), (["a"], ["b"])]).map (endVert "1")).dedup.length = 1 ∧
    (buildNodes (paths_to_root [(["a"], ["a"]), (["a"], ["b"])])).filter
      (fun v => decide (v ∈ buildLeaves (paths_to_root [(["a"], ["a"]), (["a"], ["b"])]))) =
      ["1", "1.a"] ∧
    (buildLeaves (paths_to_root [(["a"], ["a"]), (["a"], ["b"])])).length = 3 := by
  refine ⟨by decide, by decide, by decide, by decide⟩

/-- C8: a cusp with coefficient pair `(0, 0)` passes; a filled cusp
passes only when both coefficients are integers with gcd 1; any
non-integer or non-coprime pair makes `WordProblemSolver` construction
fail with the `UnsupportedTopology` error (the orbifold `ValueError`),
raised before any certified computation: the outcome of the holonomy
verification is never consulted. -/
theorem c8_filling_validation :
    (∀ cusps : List (ℚ × ℚ), is_manifold cusps = true ↔
      ∀ p ∈ cusps, (p.1 = 0 ∧ p.2 = 0) ∨
        (p.1.den = 1 ∧ p.2.den = 1 ∧ Int.gcd p.1.num p.2.num = 1)) ∧
    (∀ (cusps : List (ℚ × ℚ)) (verified : Option Rho),
      is_manifold cusps = false →
      WordProblemSolver.init cusps verified = .error .unsupportedTopology) := by
  constructor
  · intro cusps
    rw [is_manifold, List.all_eq_true]
    constructor
    · intro h p hp
      have hb := h p hp
      by_cases hd : p.1.den = 1 ∧ p.2.den = 1
      · rw [if_pos hd] at hb
        by_cases hz : p.1 = 0 ∧ p.2 = 0
        · exact Or.inl hz
        · rw [if_neg hz] at hb
          exact Or.inr ⟨hd.1, hd.2, by simpa using hb⟩
      · rw [if_neg hd] at hb
        exact absurd hb (by simp)
    · intro h p hp
      rcases h p hp with ⟨h1, h2⟩ | ⟨hd1, hd2, hg⟩
      · have hd : p.1.den = 1 ∧ p.2.den = 1 := by rw [h1, h2]; exact ⟨rfl, rfl⟩
        rw [if_pos hd, if_pos ⟨h1, h2⟩]
      · rw [if_pos ⟨hd1, hd2⟩]
        by_cases hz : p.1 = 0 ∧ p.2 = 0
        · rw [if_pos hz]
        · rw [if_neg hz]
          simp [hg]
  · intro cusps v h
    simp [WordProblemSolver.init, h]

/-- C8 witness: the filling `(4, 2)` (integers, but gcd 2) makes solver
construction fail with `UnsupportedTopology` even though a verified
representation is supplied. -/
theorem c8_filling_validation_witness :
    WordProblemSolver.init [((4 : ℚ), (2 : ℚ))]
      (some ⟨["a"], ["aa"], fun _ => IMat.pt 1 0 0 1⟩) = .error .unsupportedTopology :=
  c8_filling_validation.2 _ _ (by with_unfolding_all decide)

/-- C1: under the standing assumption that the word image and the two
anchors satisfy the `assert` of `jorgensens_inequality_fails` (each is an
interval matrix whose product with its adjugate contains the identity,
as holds for any interval matrix containing an actual SL(2,C) element),
`is_nontrivial` has exactly three outcomes: `.ok true` iff the image
provably does not contain the identity, `.ok false` iff it may contain
the identity and both anchors show the Jorgensen failure condition, and
otherwise the `PrecisionInsufficient` error (the only possible error);
`is_trivial` is the boolean negation with the same error behaviour. -/
theorem c1_is_nontrivial_trichotomy :
    ∀ (s : WordProblemSolver) (w : String),
      contains_one (IMat.mul (s.rho w) (SL2C_inverse (s.rho w))) = true →
      contains_one (IMat.mul s.noncommmuting_mats.1 (SL2C_inverse s.noncommmuting_mats.1)) = true →
      contains_one (IMat.mul s.noncommmuting_mats.2 (SL2C_inverse s.noncommmuting_mats.2)) = true →
      (s.is_nontrivial w = .ok true ↔ contains_one (s.rho w) = false) ∧
      (s.is_nontrivial w = .ok false ↔
        (contains_one (s.rho w) = true ∧
         jorgensen_mu_lt_one (s.rho w) s.noncommmuting_mats.1 = true ∧
         jorgensen_mu_lt_one (s.rho w) s.noncommmuting_mats.2 = true)) ∧
      (∀ e : Err, s.is_nontrivial w = .error e → e = .precisionInsufficient) ∧
      (s.is_nontrivial w = .error .precisionInsufficient ↔
        (contains_one (s.rho w) = true ∧
         ¬(jorgensen_mu_lt_one (s.rho w) s.noncommmuting_mats.1 = true ∧
           jorgensen_mu_lt_one (s.rho w) s.noncommmuting_mats.2 = true))) ∧
      (s.is_trivial w = .ok true ↔ s.is_nontrivial w = .ok false) ∧
      (s.is_trivial w = .ok false ↔ s.is_nontrivial w = .ok true) ∧
      (∀ e : Err, s.is_trivial w = .error e ↔ s.is_nontrivial w = .error e) := by
  intro s w h1 h2 h3
  have hj1 : jorgensens_inequality_fails (s.rho w) s.noncommmuting_mats.1 =
      .ok (jorgensen_mu_lt_one (s.rho w) s.noncommmuting_mats.1) := by
    simp [jorgensens_inequality_fails, h1, h2]
  have hj2 : jorgensens_inequality_fails (s.rho w) s.noncommmuting_mats.2 =
      .ok (jorgensen_mu_lt_one (s.rho w) s.noncommmuting_mats.2) := by
    simp [jorgensens_inequality_fails, h1, h3]
  cases hc : contains_one (s.rho w) with
  | false =>
    have hn : s.is_nontrivial w = .ok true := by
      simp [WordProblemSolver.is_nontrivial, hc]
    have ht : s.is_trivial w = .ok false := by
      simp [WordProblemSolver.is_trivial, hn, Except.map]
    simp [hn, ht]
  | true =>
    cases hm1 : jorgensen_mu_lt_one (s.rho w) s.noncommmuting_mats.1 with
    | false =>
      have hn : s.is_nontrivial w = .error .precisionInsufficient := by
        simp [WordProblemSolver.is_nontrivial, hc, hj1, hm1, bind, Except.bind]
      have ht : s.is_trivial w = .error .precisionInsufficient := by
        simp [WordProblemSolver.is_trivial, hn, Except.map]
      simp [hn, ht, hc, hm1]
    | true =>
      cases hm2 : jorgensen_mu_lt_one (s.rho w) s.noncommmuting_mats.2 with
      | false =>
        have hn : s.is_nontrivial w = .error .precisionInsufficient := by
          simp [WordProblemSolver.is_nontrivial, hc, hj1, hj2, hm1, hm2, bind, Except.bind]
        have ht : s.is_trivial w = .error .precisionInsufficient := by
          simp [WordProblemSolver.is_trivial, hn, Except.map]
        simp [hn, ht, hc, hm1, hm2]
      | true =>
        have hn : s.is_nontrivial w = .ok false := by
          simp [WordProblemSolver.is_nontrivial, hc, hj1, hj2, hm1, hm2, bind, Except.bind]
        have ht : s.is_trivial w = .ok true := by
          simp [WordProblemSolver.is_trivial, hn, Except.map]
        simp [hn, ht, hc, hm1, hm2]

/-- C1 witness: a concrete solver whose word image `[[2,1],[1,1]]`
provably excludes the identity is certified nontrivial. -/
theorem c1_is_nontrivial_trichotomy_witness :
    WordProblemSolver.is_nontrivial
      ⟨fun _ => IMat.pt 2 1 1 1, (IMat.pt 1 1 0 1, IMat.pt 1 0 1 1)⟩ "g" = .ok true :=
  ((c1_is_nontrivial_trichotomy
      ⟨fun _ => IMat.pt 2 1 1 1, (IMat.pt 1 1 0 1, IMat.pt 1 0 1 1)⟩ "g"
      (by with_unfolding_all decide) (by with_unfolding_all decide)
      (by with_unfolding_all decide)).1).mpr (by with_unfolding_all decide)

/-! ## Point-interval computation lemmas -/

theorem pt_add (x y : ℚ) : Itv.add (Itv.pt x) (Itv.pt y) = Itv.pt (x + y) := rfl

theorem pt_sub (x y : ℚ) : Itv.sub (Itv.pt x) (Itv.pt y) = Itv.pt (x - y) := rfl

theorem pt_neg (x : ℚ) : Itv.neg (Itv.pt x) = Itv.pt (-x) := rfl

theorem pt_mul (x y : ℚ) : Itv.mul (Itv.pt x) (Itv.pt y) = Itv.pt (x * y) := by
  simp [Itv.mul, Itv.pt]

theorem pt_sq (x : ℚ) : Itv.sq (Itv.pt x) = Itv.pt (x * x) := by
  rw [Itv.sq, pt_mul]

theorem pt_abs (x : ℚ) : Itv.abs (Itv.pt x) = Itv.pt |x| := by
  have h : max x (-x) = |x| := (abs_eq_max_neg (a := x)).symm
  simp only [Itv.abs, Itv.pt, h, Itv.mk.injEq]
  simp [max_eq_right (abs_nonneg x)]

theorem pt_ltB (x y : ℚ) : Itv.ltB (Itv.pt x) (Itv.pt y) = decide (x < y) := rfl

theorem pt_pymin (x y : ℚ) : Itv.pymin (Itv.pt x) (Itv.pt y) = Itv.pt (min x y) := by
  rw [Itv.pymin]
  by_cases h : y < x
  · rw [if_pos (by simp [Itv.ltB, Itv.pt, h]), min_eq_right (le_of_lt h)]
  · rw [if_neg (by simp [Itv.ltB, Itv.pt, h]), min_eq_left (le_of_not_lt h)]

theorem pt_mmul (x1 x2 x3 x4 y1 y2 y3 y4 : ℚ) :
    IMat.mul (IMat.pt x1 x2 x3 x4) (IMat.pt y1 y2 y3 y4) =
      IMat.pt (x1 * y1 + x2 * y3) (x1 * y2 + x2 * y4)
        (x3 * y1 + x4 * y3) (x3 * y2 + x4 * y4) := by
  simp [IMat.mul, IMat.pt, pt_mul, pt_add]

theorem pt_trace (a b c d : ℚ) : IMat.trace (IMat.pt a b c d) = Itv.pt (a + d) := by
  simp [IMat.trace, IMat.pt, pt_add]

theorem pt_inv (a b c d : ℚ) :
    SL2C_inverse (IMat.pt a b c d) = IMat.pt d (-b) (-c) a := by
  simp [SL2C_inverse, IMat.pt, pt_neg]

/-- For exact (point) matrices, the trace of
`A*X*invert(A)*invert(X)` equals the trace of `X*A*invert(X)*invert(A)`:
an algebraic identity of 2×2 matrices over a commutative ring (both
equal `tr(AX)tr(XA) - tr(AXXA)` by `tr(M adj(N)) = tr(M)tr(N) - tr(MN)`). -/
theorem trace_comm_pt (x1 x2 x3 x4 a1 a2 a3 a4 : ℚ) :
    IMat.trace (IMat.mul (IMat.mul
        (IMat.mul (IMat.pt a1 a2 a3 a4) (IMat.pt x1 x2 x3 x4))
        (SL2C_inverse (IMat.pt a1 a2 a3 a4))) (SL2C_inverse (IMat.pt x1 x2 x3 x4))) =
    IMat.trace (IMat.mul (IMat.mul
        (IMat.mul (IMat.pt x1 x2 x3 x4) (IMat.pt a1 a2 a3 a4))
        (SL2C_inverse (IMat.pt x1 x2 x3 x4))) (SL2C_inverse (IMat.pt a1 a2 a3 a4))) := by
  simp only [pt_inv, pt_mmul, pt_trace, Itv.pt, Itv.mk.injEq]
  constructor <;> ring

set_option maxRecDepth 200000 in
/-- C2 counterexample: for the wide interval matrix
`P = [[ [1,11/10], 0], [0, [1,11/10] ]]` (which contains the identity, an
actual SL(2,C) element) and the exact parabolic `Q = [[1,1],[0,1]]`, both
matrices pass the code's assertions and every value consistent with the
spec's `mu` interval (endpointwise interval `min`, `mu_spec = [0, 21/50]`)
is provably below 1, yet `jorgensens_inequality_fails` returns `False`:
the Python builtin `min` keeps the whole wide first interval `[0, 21/25]`
because the second operand is not interval-less than it, giving
`mu = [0, 63/50]` whose upper bound is not below 1. -/
theorem c2_interval_min_counterexample :
    jorgensens_inequality_fails
        (⟨⟨1, 11/10⟩, Itv.pt 0, Itv.pt 0, ⟨1, 11/10⟩⟩ : IMat) (IMat.pt 1 1 0 1) =
      .ok false ∧
    (mu_spec (⟨⟨1, 11/10⟩, Itv.pt 0, Itv.pt 0, ⟨1, 11/10⟩⟩ : IMat) (IMat.pt 1 1 0 1)).lo ≤
      (mu_spec (⟨⟨1, 11/10⟩, Itv.pt 0, Itv.pt 0, ⟨1, 11/10⟩⟩ : IMat) (IMat.pt 1 1 0 1)).hi ∧
    (mu_spec (⟨⟨1, 11/10⟩, Itv.pt 0, Itv.pt 0, ⟨1, 11/10⟩⟩ : IMat) (IMat.pt 1 1 0 1)).hi < 1 := by
  with_unfolding_all decide

/-- C2 amended: with the first term computed by Python's builtin `min`
(which selects the second interval only when it is provably
interval-less than the first, otherwise the first) rather than the
endpointwise interval minimum, the equivalence holds: for well-formed
inputs passing the code's assertions, `jorgensens_inequality_fails`
returns `True` iff every value consistent with the computed `mu`
interval is less than 1. -/
theorem c2_mu_lt_one_iff :
    ∀ P Q : IMat,
      contains_one (IMat.mul P (SL2C_inverse P)) = true →
      contains_one (IMat.mul Q (SL2C_inverse Q)) = true →
      (jorgensen_mu P Q).lo ≤ (jorgensen_mu P Q).hi →
      (jorgensens_inequality_fails P Q = .ok true ↔
        ∀ x : ℚ, (jorgensen_mu P Q).lo ≤ x → x ≤ (jorgensen_mu P Q).hi → x < 1) := by
  intro P Q h1 h2 hwf
  have hj : jorgensens_inequality_fails P Q = .ok (jorgensen_mu_lt_one P Q) := by
    simp [jorgensens_inequality_fails, h1, h2]
  rw [hj]
  constructor
  · intro h x hx1 hx2
    have hb : jorgensen_mu_lt_one P Q = true := by simpa using h
    have hlt : (jorgensen_mu P Q).hi < 1 := by
      simpa [jorgensen_mu_lt_one, Itv.ltB, Itv.pt] using hb
    exact lt_of_le_of_lt hx2 hlt
  · intro h
    have hlt : (jorgensen_mu P Q).hi < 1 := h _ hwf le_rfl
    have hb : jorgensen_mu_lt_one P Q = true := by
      simp [jorgensen_mu_lt_one, Itv.ltB, Itv.pt, hlt]
    rw [hb]

set_option maxRecDepth 200000 in
/-- C2 witness: for the exact parabolic matrix `[[1,1],[0,1]]` paired
with itself the computed `mu` interval is `[0, 0]`, every consistent
value is below 1, and the test indeed returns `True`. -/
theorem c2_mu_lt_one_iff_witness :
    jorgensens_inequality_fails (IMat.pt 1 1 0 1) (IMat.pt 1 1 0 1) = .ok true := by
  have h := c2_mu_lt_one_iff (IMat.pt 1 1 0 1) (IMat.pt 1 1 0 1)
    (by with_unfolding_all decide) (by with_unfolding_all decide)
    (by with_unfolding_all decide)
  apply h.mpr
  intro x hx1 hx2
  have he : (jorgensen_mu (IMat.pt 1 1 0 1) (IMat.pt 1 1 0 1)).hi = 0 := by
    with_unfolding_all decide
  rw [he] at hx2
  linarith

set_option maxRecDepth 200000 in
/-- C3 counterexample: for the wide interval matrix
`X = [[ [1,11/10], 0], [0, [1,11/10] ]]` (the image of a word whose direct
test is ambiguous) and the exact parabolic anchor `A = [[1,1],[0,1]]`, the
per-anchor result actually used by `is_nontrivial`, namely
`jorgensens_inequality_fails(X, A)`, is `False`, while the OR of the
directional Jorgensen tests applied to `(X, A)` and to `(A, X)` is
`True` (the `(A, X)` direction succeeds since `|trace(A)^2 - 4| = [0,0]`):
the single min-based call keeps `X`'s whole wide first term, so the
claimed OR decomposition fails on wide intervals. -/
theorem c3_directional_or_counterexample :
    jorgensens_inequality_fails
        (⟨⟨1, 11/10⟩, Itv.pt 0, Itv.pt 0, ⟨1, 11/10⟩⟩ : IMat) (IMat.pt 1 1 0 1) =
      .ok false ∧
    (jorgensen_directional
        (⟨⟨1, 11/10⟩, Itv.pt 0, Itv.pt 0, ⟨1, 11/10⟩⟩ : IMat) (IMat.pt 1 1 0 1) ||
      jorgensen_directional (IMat.pt 1 1 0 1)
        (⟨⟨1, 11/10⟩, Itv.pt 0, Itv.pt 0, ⟨1, 11/10⟩⟩ : IMat)) = true := by
  with_unfolding_all decide

/-- C3 amended: when the word image and the anchor are exact (point)
interval matrices, the boolean used per anchor by `is_nontrivial` —
the value of `jorgensens_inequality_fails` on the ordered pair
`(X, anchor)` — does equal the OR of the directional Jorgensen failure
test on `(X, anchor)` and on `(anchor, X)`: the builtin `min` over the
two first terms realises both directions at once, and for point
matrices the two commutator-trace computations agree.  For genuinely
wide intervals the two orders can differ (see the counterexample). -/
theorem decide_min_add_lt (a b c : ℚ) :
    decide (min a b + c < 1) = (decide (a + c < 1) || decide (b + c < 1)) := by
  rw [← min_add_add_right]
  by_cases h1 : a + c < 1 <;> by_cases h2 : b + c < 1 <;>
    simp [min_lt_iff, h1, h2]

theorem c3_point_anchor_or (x1 x2 x3 x4 a1 a2 a3 a4 : ℚ) :
    jorgensen_mu_lt_one (IMat.pt x1 x2 x3 x4) (IMat.pt a1 a2 a3 a4) =
      (jorgensen_directional (IMat.pt x1 x2 x3 x4) (IMat.pt a1 a2 a3 a4) ||
        jorgensen_directional (IMat.pt a1 a2 a3 a4) (IMat.pt x1 x2 x3 x4)) := by
  rw [jorgensen_mu_lt_one, jorgensen_mu, jorgensen_first_term,
    jorgensen_directional, jorgensen_directional, trace_comm_pt]
  simp only [pt_inv, pt_mmul, pt_trace, pt_sq, pt_sub, pt_abs, pt_pymin, pt_add, pt_ltB]
  exact decide_min_add_lt _ _ _

/-- C6: `check_claim` returns `.ok true` iff every token of the claim's
`trivial_word` is a member of its own path's edge-label set and the
joined word is certified trivial; a claim with a token outside its own
path yields `.ok false` even when the joined word is certified trivial;
and a successful `check_proof` run returns the conjunction of the
tree-shape check, the edge-label nontriviality check and the per-claim
checks. -/
theorem c6_check_claim_composition :
    (∀ (s : WordProblemSolver) (c : Claim),
      check_claim s c = .ok true ↔
        ((∀ t ∈ c.2, t ∈ c.1) ∧ s.is_trivial (String.join c.2) = .ok true)) ∧
    (∀ (s : WordProblemSolver) (c : Claim),
      (∃ t ∈ c.2, t ∉ c.1) → s.is_trivial (String.join c.2) = .ok true →
      check_claim s c = .ok false) ∧
    (∀ (s : WordProblemSolver) (cs : List Claim) (b : Bool),
      check_proof s cs = .ok b ↔
        ∃ b1 b2 : Bool,
          all_nontrivial_edge_labels s cs = .ok b1 ∧
          allE (check_claim s) cs = .ok b2 ∧
          b = (tree_ok cs && b1 && b2)) := by
  refine ⟨?_, ?_, ?_⟩
  · intro s c
    cases h : s.is_trivial (String.join c.2) with
    | error e => simp [check_claim, h, bind, Except.bind]
    | ok b =>
      cases b <;>
        simp [check_claim, h, bind, Except.bind, List.all_eq_true]
  · intro s c ht h1
    have ha : (c.2.all fun t => decide (t ∈ c.1)) = false := by
      rcases ht with ⟨t, htm, htn⟩
      simp only [List.all_eq_false]
      exact ⟨t, htm, by simpa using htn⟩
    simp [check_claim, h1, bind, Except.bind, ha]
  · intro s cs b
    cases h1 : all_nontrivial_edge_labels s cs with
    | error e => simp [check_proof, h1, bind, Except.bind]
    | ok b1 =>
      cases h2 : allE (check_claim s) cs with
      | error e => simp [check_proof, h1, h2, bind, Except.bind]
      | ok b2 =>
        simp only [check_proof, h1, h2, bind, Except.bind]
        constructor
        · intro hb
          exact ⟨b1, b2, rfl, rfl, by
            cases hb with
            | refl => rfl
            ⟩
        · rintro ⟨b1x, b2x, hx1, hx2, hx3⟩
          cases hx1
          cases hx2
          rw [hx3]

set_option maxRecDepth 200000 in
/-- C6 witness: a claim whose asserted word token `"b"` is absent from
its path `["a"]` is rejected by `check_claim` even though the solver
certifies the word trivial. -/
theorem c6_check_claim_composition_witness :
    check_claim ⟨fun _ => IMat.pt 1 0 0 1, (IMat.pt 1 0 0 1, IMat.pt 1 0 0 1)⟩
      (["a"], ["b"]) = .ok false :=
  c6_check_claim_composition.2.1
    ⟨fun _ => IMat.pt 1 0 0 1, (IMat.pt 1 0 0 1, IMat.pt 1 0 0 1)⟩ (["a"], ["b"])
    ⟨"b", by simp, by simp⟩ (by with_unfolding_all decide)

/-- C10: the three stages of `check_proof` are evaluated eagerly:
`check_claim`'s error is exactly the error of the certified triviality
evaluation, which runs before the token-membership test; `check_proof`
errors exactly when a stage-2 or stage-3 evaluation errors, with the
tree-shape result never short-circuiting them; in particular a
precision failure in the edge-label stage aborts the whole check even
on an input the tree-shape check alone already rejects. -/
theorem c10_eager_stage_errors :
    (∀ (s : WordProblemSolver) (c : Claim) (e : Err),
      check_claim s c = .error e ↔ s.is_trivial (String.join c.2) = .error e) ∧
    (∀ (s : WordProblemSolver) (cs : List Claim) (e : Err),
      check_proof s cs = .error e ↔
        (all_nontrivial_edge_labels s cs = .error e ∨
          ∃ b1 : Bool, all_nontrivial_edge_labels s cs = .ok b1 ∧
            allE (check_claim s) cs = .error e)) ∧
    (∀ (s : WordProblemSolver) (cs : List Claim) (e : Err),
      tree_ok cs = false → all_nontrivial_edge_labels s cs = .error e →
      check_proof s cs = .error e) := by
  have h2 : ∀ (s : WordProblemSolver) (cs : List Claim) (e : Err),
      check_proof s cs = .error e ↔
        (all_nontrivial_edge_labels s cs = .error e ∨
          ∃ b1 : Bool, all_nontrivial_edge_labels s cs = .ok b1 ∧
            allE (check_claim s) cs = .error e) := by
    intro s cs e
    cases h1 : all_nontrivial_edge_labels s cs with
    | error e1 => simp [check_proof, h1, bind, Except.bind]
    | ok b1 =>
      cases hh : allE (check_claim s) cs with
      | error e2 => simp [check_proof, h1, hh, bind, Except.bind]
      | ok b2 => simp [check_proof, h1, hh, bind, Except.bind]
  refine ⟨?_, h2, fun s cs e h0 he => (h2 s cs e).mpr (Or.inl he)⟩
  intro s c e
  cases h : s.is_trivial (String.join c.2) with
  | error e1 => simp [check_claim, h, bind, Except.bind]
  | ok b => simp [check_claim, h, bind, Except.bind]

set_option maxRecDepth 200000 in
/-- C10 witness: two identical paths make the tree-shape check fail,
yet the imprecise solver's edge-label evaluation raises
`PrecisionInsufficient` and the whole check aborts with that error
instead of returning `False`. -/
theorem c10_eager_stage_errors_witness :
    check_proof
      ⟨fun _ => ⟨⟨0, 2⟩, Itv.pt 0, Itv.pt 0, ⟨0, 2⟩⟩,
        (IMat.pt 1 1 0 1, IMat.pt 1 1 0 1)⟩
      [(["a"], ["a"]), (["a"], ["a"])] = .error .precisionInsufficient :=
  c10_eager_stage_errors.2.2
    ⟨fun _ => ⟨⟨0, 2⟩, Itv.pt 0, Itv.pt 0, ⟨0, 2⟩⟩,
      (IMat.pt 1 1 0 1, IMat.pt 1 1 0 1)⟩
    [(["a"], ["a"]), (["a"], ["a"])] .precisionInsufficient
    (by decide) (by with_unfolding_all decide)

/-! ## Graph-construction lemmas for the root-degree analysis -/

theorem mem_foldl_insertFresh_acc {α : Type} [DecidableEq α]
    (l acc : List α) (a : α) (h : a ∈ acc) : a ∈ l.foldl insertFresh acc := by
  induction l generalizing acc with
  | nil => exact h
  | cons x xs ih =>
    apply ih
    rw [insertFresh]
    split
    · exact h
    · exact List.mem_append_left _ h

theorem mem_foldl_insertFresh {α : Type} [DecidableEq α]
    (l acc : List α) (a : α) (h : a ∈ l) : a ∈ l.foldl insertFresh acc := by
  induction l generalizing acc with
  | nil => cases h
  | cons x xs ih =>
    rcases List.mem_cons.mp h with rfl | h2
    · refine mem_foldl_insertFresh_acc xs (insertFresh acc a) a ?_
      rw [insertFresh]
      split
      · assumption
      · exact List.mem_append_right _ (by simp)
    · exact ih _ h2

theorem nodup_foldl_insertFresh {α : Type} [DecidableEq α]
    (l acc : List α) (h : acc.Nodup) : (l.foldl insertFresh acc).Nodup := by
  induction l generalizing acc with
  | nil => exact h
  | cons x xs ih =>
    apply ih
    rw [insertFresh]
    split
    · exact h
    · rw [List.Perm.nodup_iff (List.perm_append_singleton x acc)]
      exact List.nodup_cons.mpr ⟨by assumption, h⟩

theorem mem_foldl_insertEdge_acc (l acc : List Edge) (e : Edge)
    (h : e ∈ acc) : e ∈ l.foldl insertEdge acc := by
  induction l generalizing acc with
  | nil => exact h
  | cons x xs ih =>
    apply ih
    rw [insertEdge]
    split
    · exact h
    · exact List.mem_append_left _ h

theorem insertEdge_key (acc : List Edge) (e : Edge) :
    ∃ e2 ∈ insertEdge acc e, e2.src = e.src ∧ e2.tgt = e.tgt := by
  rw [insertEdge]
  by_cases h : (acc.any fun e2 => e2.src == e.src && e2.tgt == e.tgt) = true
  · rw [if_pos h]
    obtain ⟨e2, he2, hkey⟩ := List.any_eq_true.mp h
    refine ⟨e2, he2, ?_⟩
    simpa [Bool.and_eq_true] using hkey
  · rw [if_neg h]
    exact ⟨e, List.mem_append_right _ (by simp), rfl, rfl⟩

theorem exists_key_of_mem_foldl_insertEdge (l acc : List Edge) (e : Edge)
    (h : e ∈ l) :
    ∃ e2 ∈ l.foldl insertEdge acc, e2.src = e.src ∧ e2.tgt = e.tgt := by
  induction l generalizing acc with
  | nil => cases h
  | cons x xs ih =>
    rcases List.mem_cons.mp h with rfl | h2
    · obtain ⟨e2, he2, hk⟩ := insertEdge_key acc e
      exact ⟨e2, mem_foldl_insertEdge_acc xs (insertEdge acc e) e2 he2, hk⟩
    · exact ih _ h2

theorem mem_of_mem_foldl_insertEdge (l acc : List Edge) (e : Edge)
    (h : e ∈ l.foldl insertEdge acc) : e ∈ acc ∨ e ∈ l := by
  induction l generalizing acc with
  | nil => exact Or.inl h
  | cons x xs ih =>
    rcases ih _ h with h2 | h2
    · rw [insertEdge] at h2
      split at h2
      · exact Or.inl h2
      · rcases List.mem_append.mp h2 with h3 | h3
        · exact Or.inl h3
        · have hex : e = x := List.mem_singleton.mp h3
          subst hex
          exact Or.inr (List.mem_cons_self _ _)
    · exact Or.inr (List.mem_cons_of_mem _ h2)

theorem lt_tgt_length_of_mem_edgesOf (p : List String) (v : String) (e : Edge)
    (h : e ∈ edgesOf v p) : v.length < e.tgt.length := by
  induction p generalizing v with
  | nil => cases h
  | cons g gs ih =>
    have hdot : (("." : String)).length = 1 := rfl
    rcases List.mem_cons.mp h with rfl | h2
    · show v.length < (v ++ "." ++ g).length
      rw [String.length_append, String.length_append]
      omega
    · have h3 := ih _ h2
      rw [String.length_append, String.length_append] at h3
      omega

theorem endVert_mem_vertsOf (p : List String) (v : String) (h : p ≠ []) :
    endVert v p ∈ vertsOf v p := by
  induction p generalizing v with
  | nil => exact absurd rfl h
  | cons g gs ih =>
    rw [endVert, vertsOf]
    by_cases hg : gs = []
    · subst hg
      simp [endVert]
    · exact List.mem_cons_of_mem _ (ih _ hg)

theorem mem_nodes_of_mem_leaves (paths : List (List String)) (x : String)
    (h : x ∈ buildLeaves paths) : x ∈ buildNodes paths := by
  rw [buildLeaves] at h
  rcases List.mem_cons.mp h with rfl | h2
  · exact mem_foldl_insertFresh_acc _ _ _ (by simp)
  · obtain ⟨p, hp, rfl⟩ := List.mem_map.mp h2
    by_cases he : p = []
    · subst he
      exact mem_foldl_insertFresh_acc _ _ _ (by simp [endVert])
    · apply mem_foldl_insertFresh
      exact List.mem_flatten.mpr
        ⟨vertsOf "1" p, List.mem_map_of_mem _ hp, endVert_mem_vertsOf _ _ he⟩

theorem nodup_of_filter_length {ns leaves : List String}
    (hns : ns.Nodup)
    (hlen : (ns.filter fun v => decide (v ∈ leaves)).length = leaves.length) :
    leaves.Nodup := by
  have hfn : (ns.filter fun v => decide (v ∈ leaves)).Nodup := hns.filter _
  have hsubF : (ns.filter fun v => decide (v ∈ leaves)).toFinset ⊆ leaves.toFinset := by
    intro x hx
    rw [List.mem_toFinset] at hx ⊢
    simpa using (List.mem_filter.mp hx).2
  have h1 : (ns.filter fun v => decide (v ∈ leaves)).length ≤ leaves.dedup.length := by
    calc (ns.filter fun v => decide (v ∈ leaves)).length
        = (ns.filter fun v => decide (v ∈ leaves)).toFinset.card :=
          (List.toFinset_card_of_nodup hfn).symm
      _ ≤ leaves.toFinset.card := Finset.card_le_card hsubF
      _ = leaves.dedup.length := List.card_toFinset leaves
  have h2 : leaves.dedup.length ≤ leaves.length := (List.dedup_sublist leaves).length_le
  have h3 : leaves.dedup = leaves :=
    (List.dedup_sublist leaves).eq_of_length (by omega)
  rw [← h3]
  exact leaves.nodup_dedup

theorem two_le_length_of_two_mem {α : Type} {a b : α} {l : List α}
    (ha : a ∈ l) (hb : b ∈ l) (hne : a ≠ b) : 2 ≤ l.length := by
  induction l with
  | nil => cases ha
  | cons x xs ih =>
    rcases List.mem_cons.mp ha with rfl | ha2
    · rcases List.mem_cons.mp hb with rfl | hb2
      · exact absurd rfl hne
      · have := List.length_pos_of_mem hb2
        simp only [List.length_cons]
        omega
    · rcases List.mem_cons.mp hb with rfl | hb2
      · have := List.length_pos_of_mem ha2
        simp only [List.length_cons]
        omega
      · have := ih ha2 hb2
        simp only [List.length_cons]
        omega

theorem str_append_cancel (s a b : String) (h : s ++ a = s ++ b) : a = b := by
  have hd : s.data ++ a.data = s.data ++ b.data := by
    simpa [String.data_append] using congrArg String.data h
  have hab : a.data = b.data := List.append_cancel_left hd
  cases a
  cases b
  exact congrArg String.mk (by simpa using hab)

/-- C5: `tree_ok` places the root `'1'` in its leaf list before
inserting any path, so an accepted claim list has root total degree
exactly 1; consequently all paths are nonempty and begin with the same
first edge label, and the two-claim input with paths `["a"]` and `["A"]`
is rejected (the root then has degree 2). -/
theorem c5_root_degree_one_common_first_edge :
    (∀ claims : List Claim, tree_ok claims = true →
      degree (buildEdges (paths_to_root claims)) "1" = 1 ∧
      ∀ p ∈ paths_to_root claims, p ≠ [] ∧
        ∀ q ∈ paths_to_root claims, p.head? = q.head?) ∧
    tree_ok [(["a"], ["a"]), (["A"], ["A"])] = false := by
  refine ⟨?_, by decide⟩
  intro claims htrue
  have h' := htrue
  simp only [tree_ok, Bool.and_eq_true] at h'
  obtain ⟨⟨⟨hA, hB⟩, hC⟩, hD⟩ := h'
  have h1mem : "1" ∈ buildNodes (paths_to_root claims) :=
    mem_foldl_insertFresh_acc _ _ _ (by simp)
  have hBroot := List.all_eq_true.mp hB _ h1mem
  rw [if_pos (show "1" ∈ buildLeaves (paths_to_root claims) by simp [buildLeaves])]
    at hBroot
  have hroot : degree (buildEdges (paths_to_root claims)) "1" = 1 := by
    simpa using hBroot
  refine ⟨hroot, ?_⟩
  have hnodupNs : (buildNodes (paths_to_root claims)).Nodup :=
    nodup_foldl_insertFresh _ _ (by simp)
  have hLnodup : (buildLeaves (paths_to_root claims)).Nodup :=
    nodup_of_filter_length hnodupNs (by simpa using hC)
  have hne : ∀ p ∈ paths_to_root claims, p ≠ [] := by
    intro p hp hcon
    have hmem : "1" ∈ (paths_to_root claims).map (endVert "1") :=
      List.mem_map.mpr ⟨p, hp, by rw [hcon]; rfl⟩
    rw [buildLeaves] at hLnodup
    exact (List.nodup_cons.mp hLnodup).1 hmem
  have hin : inDeg (buildEdges (paths_to_root claims)) "1" = 0 := by
    rw [inDeg, List.length_eq_zero, List.filter_eq_nil_iff]
    intro e he
    simp only [beq_iff_eq]
    intro hterr
    rcases mem_of_mem_foldl_insertEdge _ _ _ he with h0 | h0
    · cases h0
    · obtain ⟨lst, hlst, helst⟩ := List.mem_flatten.mp h0
      obtain ⟨p, hp, rfl⟩ := List.mem_map.mp hlst
      have hlen := lt_tgt_length_of_mem_edgesOf _ _ _ helst
      rw [hterr] at hlen
      exact lt_irrefl _ hlen
  have hout : outDeg (buildEdges (paths_to_root claims)) "1" = 1 := by
    have hcopy := hroot
    rw [degree, hin] at hcopy
    simpa using hcopy
  intro p hp
  refine ⟨hne p hp, ?_⟩
  intro q hq
  cases p with
  | nil => exact absurd rfl (hne _ hp)
  | cons gp ps =>
    cases q with
    | nil => exact absurd rfl (hne _ hq)
    | cons gq qs =>
      show some gp = some gq
      suffices hgg : gp = gq by rw [hgg]
      by_contra hgg
      have hep0 : (⟨"1", "1" ++ "." ++ gp, gp⟩ : Edge) ∈
          ((paths_to_root claims).map (edgesOf "1")).flatten :=
        List.mem_flatten.mpr ⟨edgesOf "1" (gp :: ps), List.mem_map_of_mem _ hp,
          by rw [edgesOf]; exact List.mem_cons_self _ _⟩
      have heq0 : (⟨"1", "1" ++ "." ++ gq, gq⟩ : Edge) ∈
          ((paths_to_root claims).map (edgesOf "1")).flatten :=
        List.mem_flatten.mpr ⟨edgesOf "1" (gq :: qs), List.mem_map_of_mem _ hq,
          by rw [edgesOf]; exact List.mem_cons_self _ _⟩
      obtain ⟨ep, hepm, hepsrc, heptgt⟩ :=
        exists_key_of_mem_foldl_insertEdge _ [] _ hep0
      obtain ⟨eqe, heqm, heqsrc, heqtgt⟩ :=
        exists_key_of_mem_foldl_insertEdge _ [] _ heq0
      have heptgt2 : ep.tgt = "1" ++ "." ++ gp := heptgt
      have heqtgt2 : eqe.tgt = "1" ++ "." ++ gq := heqtgt
      have hepsrc2 : ep.src = "1" := hepsrc
      have heqsrc2 : eqe.src = "1" := heqsrc
      have hnee : ep ≠ eqe := by
        intro hcontra
        apply hgg
        apply str_append_cancel ("1" ++ ".")
        rw [← heptgt2, ← heqtgt2, hcontra]
      have hepf : ep ∈ (buildEdges (paths_to_root claims)).filter
          (fun e => e.src == "1") :=
        List.mem_filter.mpr ⟨hepm, by simp [hepsrc2]⟩
      have heqf : eqe ∈ (buildEdges (paths_to_root claims)).filter
          (fun e => e.src == "1") :=
        List.mem_filter.mpr ⟨heqm, by simp [heqsrc2]⟩
      have h2le : 2 ≤ outDeg (buildEdges (paths_to_root claims)) "1" :=
        two_le_length_of_two_mem hepf heqf hnee
      omega

/-- C5 witness: the accepted single-claim list with path `["a"]` has
root degree exactly 1 in the built digraph. -/
theorem c5_root_degree_one_common_first_edge_witness :
    degree (buildEdges (paths_to_root [(["a"], ["a"])])) "1" = 1 :=
  (c5_root_degree_one_common_first_edge.1 [(["a"], ["a"])] (by decide)).1

end QD
